import Mathlib

/-!
Verification development for the adaptive pricing-card extraction engine of a
SaaS pricing-analytics repository. The Python sources are shallowly embedded:
text is `List Char`, Python string methods (`lower`, `strip`, `in`, `replace`)
are modelled by executable functions below, the two regular expressions of the
scraper and the one of the normalizers are modelled by dedicated leftmost-match
searchers, Python floats are modelled as exact rationals, and exceptions are
modelled by `Option`. Python `\d` and `\s` are modelled over ASCII.
-/

namespace SaaSPricing

/-- ASCII whitespace, the model of Python `str.strip` / regex `\s`. -/
def wsChars : List Char := (" \t\n\r\x0b\x0c").toList

/-- Model of "is a whitespace character". -/
def isSpaceC (c : Char) : Bool := wsChars.contains c

/-- The ten ASCII decimal digits, the model of regex `\d`. -/
def digitChars : List Char := ("0123456789").toList

/-- Model of "is a decimal digit". -/
def isDigitC (c : Char) : Bool := digitChars.contains c

/-- Model of Python `str.lower` (ASCII). -/
def toLowerL (l : List Char) : List Char := l.map Char.toLower

/-- Model of Python `str.strip`: drop whitespace from both ends. -/
def trimL (l : List Char) : List Char :=
  (l.dropWhile isSpaceC).rdropWhile isSpaceC

/-- Whether `pat` occurs at the start of `l` (Python `str.startswith`). -/
def isSubAt : List Char → List Char → Bool
  | [], _ => true
  | _ :: _, [] => false
  | a :: p, b :: l => a == b && isSubAt p l

/-- Whether `pat` occurs contiguously anywhere in `l` (Python `pat in l`). -/
def containsSub (pat : List Char) : List Char → Bool
  | [] => isSubAt pat []
  | b :: t => isSubAt pat (b :: t) || containsSub pat t

/-- `scraper.py`: the contact-sales phrases checked at priority 1 of
`extract_price`. -/
def contact_patterns : List (List Char) :=
  [("contact sales").toList, ("contact us").toList, ("get in touch").toList,
   ("talk to sales").toList, ("custom pricing").toList]

/-- Output literal `"Contact sales"`. -/
def contactSalesOut : List Char := ("Contact sales").toList

/-- Output literal `"Free"`. -/
def freeOut : List Char := ("Free").toList

/-- Output literal `"N/A"`. -/
def naOut : List Char := ("N/A").toList

/-- The lower-case word `"free"`. -/
def freeLowerL : List Char := ("free").toList

/-- The phrase `"free forever"`. -/
def freeForeverL : List Char := ("free forever").toList

/-- The lower-case word `"enterprise"`. -/
def enterpriseL : List Char := ("enterprise").toList

/-- The keyword `"contact"` used by the etl normalizer. -/
def contactKw : List Char := ("contact").toList

/-- The optional two-decimals tail `(?:\.\d{2})?`: a dot followed by exactly
two digits.  Returns the two digits and the rest of the input. -/
def matchDecimals : List Char → Option (Char × Char × List Char)
  | '.' :: a :: b :: rest =>
    if isDigitC a && isDigitC b then some (a, b, rest) else none
  | _ => none

/-- The characters consumed by a successful `(?:\.\d{2})?`, or `[]`. -/
def decPart (l : List Char) : List Char :=
  match matchDecimals l with
  | some (a, b, _) => ['.', a, b]
  | none => []

/-- Leftmost match of `\$\d+(?:\.\d{2})?` (priority 3 of `extract_price`);
returns the matched substring. -/
def searchDollar : List Char → Option (List Char)
  | [] => none
  | c :: rest =>
    if c = '$' ∧ rest.takeWhile isDigitC ≠ [] then
      some ('$' :: (rest.takeWhile isDigitC ++ decPart (rest.dropWhile isDigitC)))
    else searchDollar rest

/-- The billing-period alternation `(?:per|/|month|mo)`. -/
def billingKeywords : List (List Char) :=
  [("per").toList, ("/").toList, ("month").toList, ("mo").toList]

/-- `\s*(?:per|/|month|mo)` matches at the start of `l`. -/
def afterNumberMatches (l : List Char) : Bool :=
  billingKeywords.any (fun k => isSubAt k (l.dropWhile isSpaceC))

/-- Leftmost match of `(\d+)(?:\.\d{2})?\s*(?:per|/|month|mo)` (priority 4 of
`extract_price`); returns capture group 1 (the digits). -/
def searchNumber : List Char → Option (List Char)
  | [] => none
  | c :: rest =>
    if isDigitC c then
      if (match matchDecimals (rest.dropWhile isDigitC) with
          | some (_, _, r) => afterNumberMatches r
          | none => false) || afterNumberMatches (rest.dropWhile isDigitC) then
        some (c :: rest.takeWhile isDigitC)
      else searchNumber rest
    else searchNumber rest

/-- `scraper.py` `extract_price`: map raw container text and the tier label to
a price string, applying the five priorities in order. -/
def extract_price (text tier_name : List Char) : List Char :=
  let text_lower := toLowerL text
  if ∃ p ∈ contact_patterns, containsSub p text_lower = true then
    contactSalesOut
  else if toLowerL tier_name = freeLowerL ∨ containsSub freeForeverL text_lower = true ∨
      trimL text_lower = freeLowerL then
    freeOut
  else
    match searchDollar text with
    | some m => m
    | none =>
      match searchNumber text_lower with
      | some ds => '$' :: ds
      | none =>
        if toLowerL tier_name = enterpriseL then contactSalesOut else naOut

/-- Recognizer of the dollar-amount output class: `$` followed by one or more
digits, optionally followed by a dot and exactly two digits. -/
def isDollarAmount : List Char → Bool
  | '$' :: rest =>
    (!(rest.takeWhile isDigitC).isEmpty) &&
      (match rest.dropWhile isDigitC with
       | [] => true
       | ['.', a, b] => isDigitC a && isDigitC b
       | _ => false)
  | _ => false

/-- Digit characters to a natural number (base 10). -/
def digitsToNat (l : List Char) : Nat :=
  l.foldl (fun n c => 10 * n + (c.toNat - 48)) 0

/-- Value of a regex capture of shape `\d+(\.\d{2})?`, as an exact rational
(the model of Python `float(...)` on such strings). -/
def ratOfGroup (g : List Char) : ℚ :=
  let ds := g.takeWhile isDigitC
  match g.dropWhile isDigitC with
  | _ :: a :: b :: _ => (digitsToNat ds : ℚ) + (digitsToNat [a, b] : ℚ) / 100
  | _ => (digitsToNat ds : ℚ)

/-- Capture group 1 of `\$?(\d+(?:\.\d{2})?)` once a match is anchored at `l`
(with any leading `$` already consumed). -/
def numGroup (l : List Char) : List Char :=
  l.takeWhile isDigitC ++ decPart (l.dropWhile isDigitC)

/-- Leftmost match of `\$?(\d+(?:\.\d{2})?)` (the normalizers' regex);
returns capture group 1. -/
def searchNumeric : List Char → Option (List Char)
  | [] => none
  | c :: rest =>
    if isDigitC c then some (numGroup (c :: rest))
    else if c = '$' ∧ rest.takeWhile isDigitC ≠ [] then some (numGroup rest)
    else searchNumeric rest

/-- `etl_pipeline.py` `normalize_price`: price string to numeric value;
`none` models `NaN`. -/
def normalize_price (price_str : List Char) : Option ℚ :=
  let p := trimL price_str
  if toLowerL p = freeLowerL then some 0
  else if containsSub contactKw (toLowerL p) = true then none
  else
    match searchNumeric p with
    | some g => some (ratOfGroup g)
    | none => none

/-- `transform_pricing.py`: the keywords rejected by `standardize_price`. -/
def priceKeywords : List (List Char) :=
  [("contact").toList, ("custom").toList, ("enterprise").toList]

/-- `transform_pricing.py` `standardize_price`: price string to numeric
value; `none` models Python `None`. -/
def standardize_price (price_str : List Char) : Option ℚ :=
  let p := toLowerL (trimL price_str)
  if ∃ k ∈ priceKeywords, containsSub k p = true then none
  else if containsSub freeLowerL p = true ∨ p = ("$0").toList then some 0
  else
    match searchNumeric p with
    | some g => some (ratOfGroup g)
    | none => none

/-- The numeric value of a dollar-amount output string (drop the `$`). -/
def dollarValue (m : List Char) : ℚ := ratOfGroup (m.drop 1)

/-- One ascended ancestor level of a heading, as the scorer sees it: the
ancestor's rendered text and the texts of its `li` descendants. -/
structure AncestorInfo where
  text : List Char
  liTexts : List (List Char)
  deriving DecidableEq

/-- A document element: tag name, direct text (XPath `text()`), and full
rendered text (Selenium `.text`). -/
structure Elem where
  tag : List Char
  ownText : List Char
  fullText : List Char
  deriving DecidableEq

/-- The per-tier slice of a page: the elements matching the tier-name XPath
query (in document order) and, for each element, its ancestor chain; a `none`
level models the document tree raising during traversal of that level. -/
structure TierInput where
  elems : List Elem
  ancestors : Elem → List (Option AncestorInfo)

/-- The output unit: one pricing-card record. -/
structure PricingCardRecord where
  tier : List Char
  price : List Char
  features : List (List Char)
  deriving DecidableEq

/-- `scraper.py` `scrape_pricing`: the `(\$|free|contact)` case-insensitive
price-indicator test on a container's text. -/
def hasPriceIndicator (text : List Char) : Bool :=
  let tl := toLowerL text
  tl.contains '$' || containsSub freeLowerL tl || containsSub contactKw tl

/-- `scraper.py` `scrape_pricing`: the container score
`+50 if has_price − 40·other_mentions + 30 if 3 ≤ li_count ≤ 30 − len/200`. -/
def containerScore (has_price : Bool) (other_mentions li_count text_len : Nat) : ℚ :=
  (if has_price then (50 : ℚ) else 0) - 40 * (other_mentions : ℚ) +
    (if 3 ≤ li_count ∧ li_count ≤ 30 then (30 : ℚ) else 0) - (text_len : ℚ) / 200

/-- Score one ancestor level, or `none` when its text length is outside the
`[50, 5000]` plausibility band (the level is skipped, not scored). -/
def scoreLevel (tier : List Char) (tier_names : List (List Char))
    (a : AncestorInfo) : Option ℚ :=
  if a.text.length < 50 ∨ 5000 < a.text.length then none
  else
    let other_tiers := tier_names.filter (fun t => !(toLowerL t == toLowerL tier))
    let other_mentions := (other_tiers.filter (fun t => containsSub t a.text)).length
    some (containerScore (hasPriceIndicator a.text) other_mentions
      a.liTexts.length a.text.length)

/-- One step of the best-container loop: keep the running best; a raising
(`none`) or unscorable level leaves the state unchanged; a strictly higher
score replaces the best (ties keep the shallower level). -/
def bestStep (tier : List Char) (tier_names : List (List Char))
    (acc : ℚ × Option AncestorInfo) (lvl : Option AncestorInfo) :
    ℚ × Option AncestorInfo :=
  match lvl with
  | none => acc
  | some a =>
    match scoreLevel tier tier_names a with
    | none => acc
    | some s => if acc.1 < s then (s, some a) else acc

/-- `scraper.py` `scrape_pricing`: ascend the ancestor chain and return the
best-scoring container, starting from `best_score = -999`. -/
def chooseBestContainer (tier : List Char) (tier_names : List (List Char))
    (chain : List (Option AncestorInfo)) : Option AncestorInfo :=
  (chain.foldl (bestStep tier tier_names) (-999, none)).2

/-- `scraper.py` `scrape_pricing`: one step of the feature-quality filter:
reject empty, shorter than 5, longer than 250, or already-present texts;
accepted texts get internal newlines collapsed to spaces. -/
def addFeature (features : List (List Char)) (raw : List Char) :
    List (List Char) :=
  let t := trimL raw
  if t = [] then features
  else if t.length < 5 then features
  else if 250 < t.length then features
  else if t ∈ features then features
  else features ++ [trimL (t.map (fun c => if c = '\n' then ' ' else c))]

/-- `scraper.py` `scrape_pricing`: features from the first 30 `li` texts. -/
def extractFeatures (liTexts : List (List Char)) : List (List Char) :=
  (liTexts.take 30).foldl addFeature []

/-- `scraping/scraper.py` `scrape_notion_pricing`: its feature filter keeps a
trimmed text when nonempty, of length above 5 and not yet present. -/
def notionAddFeature (features : List (List Char)) (raw : List Char) :
    List (List Char) :=
  let t := trimL raw
  if t ≠ [] ∧ 5 < t.length ∧ t ∉ features then features ++ [t] else features

/-- `scrape_notion_pricing`: features from the first 20 `li` texts. -/
def notionExtractFeatures (liTexts : List (List Char)) : List (List Char) :=
  (liTexts.take 20).foldl notionAddFeature []

/-- The tags accepted as heading-like by `scrape_pricing`. -/
def allowedHeadingTags : List (List Char) :=
  [("h1").toList, ("h2").toList, ("h3").toList, ("h4").toList, ("h5").toList,
   ("h6").toList, ("span").toList, ("div").toList]

/-- The XPath `//*[text()='{tier}' or contains(text(), '{tier}')]` test,
modelled on the element's direct text (case-sensitive, as XPath is). -/
def xpathTierMatch (tier : List Char) (e : Elem) : Bool :=
  e.ownText == tier || containsSub tier e.ownText

/-- `scrape_pricing`'s heading filter: trimmed rendered text shorter than 50,
containing the tier label case-insensitively, with an allowed tag. -/
def headingOk (tier : List Char) (e : Elem) : Bool :=
  let elemText := trimL e.fullText
  decide (elemText.length < 50) &&
    containsSub (toLowerL tier) (toLowerL elemText) &&
    allowedHeadingTags.contains (toLowerL e.tag)

/-- First element of a list satisfying `p` (the Python `for ... break` scan). -/
def firstSuchThat (p : Elem → Bool) : List Elem → Option Elem
  | [] => none
  | e :: rest => if p e = true then some e else firstSuchThat p rest

/-- `scrape_pricing`'s heading locator: first XPath match passing the heading
filter, in document order. -/
def findHeading (tier : List Char) (elems : List Elem) : Option Elem :=
  firstSuchThat (headingOk tier) (elems.filter (xpathTierMatch tier))

/-- `scrape_notion_pricing`'s heading filter: trimmed text shorter than 30. -/
def notionHeadingOk (e : Elem) : Bool :=
  decide ((trimL e.fullText).length < 30)

/-- `scrape_notion_pricing`'s heading locator: exact direct-text XPath match,
first element with trimmed text shorter than 30. -/
def notionFindHeading (tier : List Char) (elems : List Elem) : Option Elem :=
  firstSuchThat notionHeadingOk (elems.filter (fun e => e.ownText == tier))

/-- Heading locator as the spec's sentence describes it: among nodes whose
text contains the label case-insensitively, the first whose trimmed text
length is below the threshold.  Stated from the spec for comparison with
`findHeading`, which is translated from the code. -/
def claimHeadingLocator (tier : List Char) (elems : List Elem) : Option Elem :=
  (elems.filter (fun e => containsSub (toLowerL tier) (toLowerL e.fullText))).find?
    (fun e => decide ((trimL e.fullText).length < 50))

/-- `scrape_pricing`: assemble the record for one tier from its chosen
container. -/
def buildRecord (tier : List Char) (a : AncestorInfo) : PricingCardRecord :=
  { tier := tier, price := extract_price a.text tier,
    features := extractFeatures a.liTexts }

/-- `scrape_pricing`: process one tier; `none` models every skip path
(`continue`): the tier body raising, no heading, or no container. -/
def processTier (tier_names : List (List Char)) (tier : List Char)
    (input : Option TierInput) : Option PricingCardRecord :=
  match input with
  | none => none
  | some ti =>
    match findHeading tier ti.elems with
    | none => none
    | some h =>
      match chooseBestContainer tier tier_names (ti.ancestors h) with
      | none => none
      | some c => some (buildRecord tier c)

/-- `scrape_pricing`: the per-tier loop, appending each successful record. -/
def extractCompanyGo (tier_names : List (List Char))
    (page : List Char → Option TierInput) :
    List (List Char) → List PricingCardRecord
  | [] => []
  | t :: ts =>
    match processTier tier_names t (page t) with
    | none => extractCompanyGo tier_names page ts
    | some r => r :: extractCompanyGo tier_names page ts

/-- `scrape_pricing`: the whole per-company extraction over the tier list. -/
def extract_company (tier_names : List (List Char))
    (page : List Char → Option TierInput) : List PricingCardRecord :=
  extractCompanyGo tier_names page tier_names

/-! Concrete fixtures used by witnesses and counterexamples. -/

/-- The tier label `"Free"`. -/
def freeTier : List Char := ("Free").toList

/-- The tier label `"Pro"`. -/
def proTier : List Char := ("Pro").toList

/-- A two-tier label set. -/
def twoTiers : List (List Char) := [freeTier, proTier]

/-- A one-tier label set. -/
def oneTier : List (List Char) := [proTier]

/-- A heading element for a tier label: a `div` whose whole text is the
label. -/
def headingFor (t : List Char) : Elem :=
  { tag := ("div").toList, ownText := t, fullText := t }

/-- The text of a single wrapping container that holds both tiers' cards:
inside the `[50, 5000]` length band and mentioning both tier labels. -/
def wrapText : List Char :=
  ("Free plan $0 per month and Pro plan $12 per month with everything included here").toList

/-- The list items of the wrapping container. -/
def wrapLis : List (List Char) :=
  [("Unlimited pages for everyone").toList,
   ("Basic automations included").toList,
   ("Shared workspace access").toList]

/-- The wrapping container as an ancestor level. -/
def wrapInfo : AncestorInfo := { text := wrapText, liTexts := wrapLis }

/-- The adversarial page: each tier's heading resolves and the only in-band
ancestor of either heading is the shared wrapping container. -/
def advPage : List Char → Option TierInput := fun t =>
  if t = freeTier ∨ t = proTier then
    some { elems := [headingFor t], ancestors := fun _ => [some wrapInfo] }
  else none

/-- A container whose list items include a five-character feature. -/
def c5Info : AncestorInfo :=
  { text := ("Pro plan is $9 per month for small teams everywhere today").toList,
    liTexts := [("abcde").toList, ("Unlimited projects forever").toList] }

/-- A page whose only tier yields the container `c5Info`. -/
def c5Page : List Char → Option TierInput := fun t =>
  if t = proTier then
    some { elems := [headingFor t], ancestors := fun _ => [some c5Info] }
  else none

/-- The candidate feature list of the spec's feature-filter example. -/
def c5Candidates : List (List Char) :=
  [[], ("ok").toList, ("Unlimited projects").toList,
   ("Unlimited projects").toList, List.replicate 300 'x']

/-- An ancestor level below the length band (its text is 4 characters). -/
def tinyInfo : AncestorInfo := { text := ("tiny").toList, liTexts := [] }

/-- A tier input whose heading resolves but whose ancestor chain has only an
out-of-band level and a raising level. -/
def c3SmallInput : TierInput :=
  { elems := [headingFor proTier], ancestors := fun _ => [some tinyInfo, none] }

/-- A tier-label set with 25 labels besides `"Pro"`: enough mentions for the
`40·mentions` penalty to push an in-band level below the `-999` sentinel. -/
def sentinelNames : List (List Char) :=
  proTier ::
    [("A").toList, ("B").toList, ("C").toList, ("D").toList, ("E").toList,
     ("F").toList, ("G").toList, ("H").toList, ("I").toList, ("J").toList,
     ("K").toList, ("L").toList, ("M").toList, ("N").toList, ("O").toList,
     ("P").toList, ("Q").toList, ("R").toList, ("S").toList, ("T").toList,
     ("U").toList, ("V").toList, ("W").toList, ("X").toList, ("Y").toList]

/-- An in-band container text (exactly 50 characters) that mentions all 25
other labels of `sentinelNames` and carries no price indicator. -/
def sentinelText : List Char :=
  ("ABCDEFGHIJKLMNOPQRSTUVWXYbbbbbbbbbbbbbbbbbbbbbbbbb").toList

/-- The heavily-penalized ancestor level built from `sentinelText`: no list
items, 25 other-tier mentions, score `-40*25 - 50/200 = -4001/4`. -/
def sentinelInfo : AncestorInfo := { text := sentinelText, liTexts := [] }

/-- A `p` element whose whole text is the `"Free"` label. -/
def pElem : Elem :=
  { tag := ("p").toList, ownText := freeTier, fullText := freeTier }

/-! Helper lemmas. -/

theorem mem_of_isSubAt {p l : List Char} (h : isSubAt p l = true) :
    ∀ c ∈ p, c ∈ l := by
  induction p generalizing l with
  | nil => intro c hc; cases hc
  | cons a p ih =>
    cases l with
    | nil => simp [isSubAt] at h
    | cons b l =>
      simp only [isSubAt, Bool.and_eq_true, beq_iff_eq] at h
      intro c hc
      rcases List.mem_cons.mp hc with rfl | hc
      · exact h.1 ▸ List.mem_cons_self _ _
      · exact List.mem_cons_of_mem _ (ih h.2 c hc)

theorem mem_of_containsSub {p l : List Char} (h : containsSub p l = true) :
    ∀ c ∈ p, c ∈ l := by
  induction l with
  | nil => simpa [containsSub] using mem_of_isSubAt h
  | cons b t ih =>
    simp only [containsSub, Bool.or_eq_true] at h
    rcases h with h | h
    · exact mem_of_isSubAt h
    · exact fun c hc => List.mem_cons_of_mem _ (ih h c hc)

theorem containsSub_eq_false {p l : List Char} {c : Char} (hc : c ∈ p)
    (hl : c ∉ l) : containsSub p l = false := by
  by_contra h
  exact hl (mem_of_containsSub (Bool.of_not_eq_false h) c hc)

theorem digit_char_cases {c : Char} (h : isDigitC c = true) :
    c = '0' ∨ c = '1' ∨ c = '2' ∨ c = '3' ∨ c = '4' ∨ c = '5' ∨ c = '6' ∨
      c = '7' ∨ c = '8' ∨ c = '9' := by
  simpa [isDigitC, digitChars, List.elem_iff, String.toList] using h

theorem toLower_of_digit {c : Char} (h : isDigitC c = true) :
    c.toLower = c := by
  rcases digit_char_cases h with rfl | rfl | rfl | rfl | rfl | rfl | rfl | rfl | rfl | rfl <;> rfl

theorem isSpaceC_of_digit {c : Char} (h : isDigitC c = true) :
    isSpaceC c = false := by
  rcases digit_char_cases h with rfl | rfl | rfl | rfl | rfl | rfl | rfl | rfl | rfl | rfl <;> rfl

theorem takeWhile_append_all {p : Char → Bool} {l₁ : List Char}
    (l₂ : List Char) (h : ∀ c ∈ l₁, p c = true)
    (h₂ : ∀ c, l₂.head? = some c → p c = false) :
    (l₁ ++ l₂).takeWhile p = l₁ ∧ (l₁ ++ l₂).dropWhile p = l₂ := by
  induction l₁ with
  | nil =>
    cases l₂ with
    | nil => simp
    | cons b t =>
      have hb := h₂ b rfl
      simp [List.takeWhile_cons, List.dropWhile_cons, hb]
  | cons a l ih =>
    have ha := h a (List.mem_cons_self _ _)
    have := ih (fun c hc => h c (List.mem_cons_of_mem _ hc))
    simp [List.takeWhile_cons, List.dropWhile_cons, ha, this.1, this.2]

theorem mem_trimL_or_space {l : List Char} {c : Char} (hc : c ∈ l) :
    c ∈ trimL l ∨ isSpaceC c = true := by
  unfold trimL
  have h1 : c ∈ l.dropWhile isSpaceC ∨ isSpaceC c = true := by
    rcases (List.mem_append.mp
        ((List.takeWhile_append_dropWhile isSpaceC l) ▸ hc)) with h | h
    · exact Or.inr (List.mem_takeWhile_imp h)
    · exact Or.inl h
  rcases h1 with h1 | h1
  · set d := l.dropWhile isSpaceC
    have h2 : c ∈ d.reverse := List.mem_reverse.mpr h1
    rcases (List.mem_append.mp
        ((List.takeWhile_append_dropWhile isSpaceC d.reverse) ▸ h2)) with h | h
    · exact Or.inr (List.mem_takeWhile_imp h)
    · exact Or.inl (by
        unfold List.rdropWhile
        exact List.mem_reverse.mpr h)
  · exact Or.inr h1

theorem dropWhile_eq_self_of_head {p : Char → Bool} {l : List Char}
    (h : ∀ c, l.head? = some c → p c = false) : l.dropWhile p = l := by
  cases l with
  | nil => rfl
  | cons a t => simp [List.dropWhile_cons, h a rfl]

theorem trimL_eq_self {l : List Char}
    (h1 : ∀ c, l.head? = some c → isSpaceC c = false)
    (h2 : ∀ c, l.getLast? = some c → isSpaceC c = false) : trimL l = l := by
  unfold trimL List.rdropWhile
  rw [dropWhile_eq_self_of_head h1]
  rw [dropWhile_eq_self_of_head (fun c hc => h2 c ((List.head?_reverse l) ▸ hc))]
  exact List.reverse_reverse l

theorem matchDecimals_eq_some {l : List Char} {a b : Char} {r : List Char}
    (h : matchDecimals l = some (a, b, r)) :
    l = '.' :: a :: b :: r ∧ isDigitC a = true ∧ isDigitC b = true := by
  unfold matchDecimals at h
  split at h
  · split at h
    · rename_i hd
      obtain ⟨rfl, rfl, rfl⟩ := by simpa using h
      exact ⟨rfl, ((Bool.and_eq_true _ _).mp hd).1, ((Bool.and_eq_true _ _).mp hd).2⟩
    · cases h
  · cases h

/-- The shape of the digit-run decomposition of a suffix `rest`. -/
theorem digitRun_shape (rest : List Char) :
    rest = rest.takeWhile isDigitC ++ rest.dropWhile isDigitC ∧
      (∀ c ∈ rest.takeWhile isDigitC, isDigitC c = true) ∧
      (∀ c, (rest.dropWhile isDigitC).head? = some c → isDigitC c = false) := by
  refine ⟨(List.takeWhile_append_dropWhile isDigitC rest).symm,
    fun c hc => List.mem_takeWhile_imp hc, fun c hc => ?_⟩
  have hne : rest.dropWhile isDigitC ≠ [] := by
    intro h; rw [h] at hc; cases hc
  have hh := List.head_dropWhile_not isDigitC rest hne
  rw [List.head?_eq_head hne] at hc
  obtain rfl : (rest.dropWhile isDigitC).head hne = c := by simpa using hc
  exact hh

theorem searchDollar_eq_some {l m : List Char} (h : searchDollar l = some m) :
    ∃ ds tail, m = '$' :: ds ++ tail ∧ ds ≠ [] ∧
      (∀ c ∈ ds, isDigitC c = true) ∧
      (tail = [] ∨ ∃ a b, isDigitC a = true ∧ isDigitC b = true ∧
        tail = ['.', a, b]) := by
  induction l with
  | nil => cases h
  | cons c rest ih =>
    rw [searchDollar] at h
    split at h
    · rename_i hc
      refine ⟨rest.takeWhile isDigitC, decPart (rest.dropWhile isDigitC),
        by simpa using h.symm, hc.2, fun c hc => List.mem_takeWhile_imp hc, ?_⟩
      unfold decPart
      rcases hd : matchDecimals (rest.dropWhile isDigitC) with _ | ⟨a, b, r⟩
      · exact Or.inl rfl
      · obtain ⟨-, ha, hb⟩ := matchDecimals_eq_some hd
        exact Or.inr ⟨a, b, ha, hb, rfl⟩
    · exact ih h

theorem searchNumber_eq_some {l ds : List Char} (h : searchNumber l = some ds) :
    ds ≠ [] ∧ ∀ c ∈ ds, isDigitC c = true := by
  induction l with
  | nil => cases h
  | cons c rest ih =>
    rw [searchNumber] at h
    split at h
    · rename_i hc
      split at h
      · obtain rfl : ds = c :: rest.takeWhile isDigitC := by simpa using h.symm
        refine ⟨by simp, fun x hx => ?_⟩
        rcases List.mem_cons.mp hx with rfl | hx
        · exact hc
        · exact List.mem_takeWhile_imp hx
      · exact ih h
    · exact ih h

theorem isDollarAmount_of_shape {ds tail : List Char}
    (hne : ds ≠ []) (hds : ∀ c ∈ ds, isDigitC c = true)
    (htail : tail = [] ∨ ∃ a b, isDigitC a = true ∧ isDigitC b = true ∧
      tail = ['.', a, b]) :
    isDollarAmount ('$' :: ds ++ tail) = true := by
  have hhead : ∀ c, tail.head? = some c → isDigitC c = false := by
    rcases htail with rfl | ⟨a, b, _, _, rfl⟩
    · intro c hc; cases hc
    · intro c hc
      obtain rfl := by simpa using hc
      rfl
  obtain ⟨htw, hdw⟩ := takeWhile_append_all tail hds hhead
  show isDollarAmount ('$' :: (ds ++ tail)) = true
  rw [isDollarAmount]
  rw [htw, hdw]
  rcases htail with rfl | ⟨a, b, ha, hb, rfl⟩
  · simp [hne]
  · simp [hne, ha, hb]

/-- Every output of `extract_price` is one of the four spec classes. -/
theorem extract_price_classes (text tier_name : List Char) :
    extract_price text tier_name = contactSalesOut ∨
      extract_price text tier_name = freeOut ∨
      extract_price text tier_name = naOut ∨
      isDollarAmount (extract_price text tier_name) = true := by
  simp only [extract_price]
  split
  · exact Or.inl rfl
  split
  · exact Or.inr (Or.inl rfl)
  rcases hd : searchDollar text with _ | m <;> dsimp only
  · rcases hn : searchNumber (toLowerL text) with _ | ds <;> dsimp only
    · split
      · exact Or.inl rfl
      · exact Or.inr (Or.inr (Or.inl rfl))
    · refine Or.inr (Or.inr (Or.inr ?_))
      obtain ⟨hne, hds⟩ := searchNumber_eq_some hn
      simpa using isDollarAmount_of_shape hne hds (Or.inl rfl)
  · refine Or.inr (Or.inr (Or.inr ?_))
    obtain ⟨ds, tail, hm, hne, hds, htail⟩ := searchDollar_eq_some hd
    rw [hm]
    exact isDollarAmount_of_shape hne hds htail

/-- The converse shape analysis of `isDollarAmount`. -/
theorem isDollarAmount_eq_true {m : List Char} (h : isDollarAmount m = true) :
    ∃ ds tail, m = '$' :: ds ++ tail ∧ ds ≠ [] ∧
      (∀ c ∈ ds, isDigitC c = true) ∧
      (tail = [] ∨ ∃ a b, isDigitC a = true ∧ isDigitC b = true ∧
        tail = ['.', a, b]) := by
  rw [isDollarAmount.eq_def] at h
  split at h
  · rename_i rest
    obtain ⟨h1, h2⟩ := (Bool.and_eq_true _ _).mp h
    refine ⟨rest.takeWhile isDigitC, rest.dropWhile isDigitC,
      by simp [List.takeWhile_append_dropWhile],
      by simpa using h1, fun c hc => List.mem_takeWhile_imp hc, ?_⟩
    split at h2
    · exact Or.inl (by assumption)
    · rename_i a b heq
      exact Or.inr ⟨a, b, ((Bool.and_eq_true _ _).mp h2).1,
        ((Bool.and_eq_true _ _).mp h2).2, heq⟩
    · cases h2
  · cases h

/-- Characters of a dollar-amount string are `$`, `.` or digits. -/
theorem dollar_chars {ds tail : List Char}
    (hds : ∀ c ∈ ds, isDigitC c = true)
    (htail : tail = [] ∨ ∃ a b, isDigitC a = true ∧ isDigitC b = true ∧
      tail = ['.', a, b]) :
    ∀ c ∈ '$' :: ds ++ tail, c = '$' ∨ c = '.' ∨ isDigitC c = true := by
  intro c hc
  rcases List.mem_cons.mp hc with rfl | hc
  · exact Or.inl rfl
  rcases List.mem_append.mp hc with hc | hc
  · exact Or.inr (Or.inr (hds c hc))
  rcases htail with rfl | ⟨a, b, ha, hb, rfl⟩
  · cases hc
  · rcases hc with _ | ⟨_, hc⟩
    · exact Or.inr (Or.inl rfl)
    rcases hc with _ | ⟨_, hc⟩
    · exact Or.inr (Or.inr ha)
    rcases hc with _ | ⟨_, hc⟩
    · exact Or.inr (Or.inr hb)
    · cases hc

/-- `toLowerL` fixes strings of dollar signs, dots and digits. -/
theorem toLowerL_fixed {m : List Char}
    (h : ∀ c ∈ m, c = '$' ∨ c = '.' ∨ isDigitC c = true) :
    toLowerL m = m := by
  unfold toLowerL
  induction m with
  | nil => rfl
  | cons a t ih =>
    have ha : a.toLower = a := by
      rcases h a (List.mem_cons_self _ _) with rfl | rfl | hd
      · rfl
      · rfl
      · exact toLower_of_digit hd
    simp only [List.map_cons, ha,
      ih (fun c hc => h c (List.mem_cons_of_mem _ hc))]

/-- `trimL` fixes dollar-amount strings. -/
theorem trimL_dollar {ds tail : List Char} (hne : ds ≠ [])
    (hds : ∀ c ∈ ds, isDigitC c = true)
    (htail : tail = [] ∨ ∃ a b, isDigitC a = true ∧ isDigitC b = true ∧
      tail = ['.', a, b]) :
    trimL ('$' :: ds ++ tail) = '$' :: ds ++ tail := by
  refine trimL_eq_self (fun c hc => ?_) (fun c hc => ?_)
  · obtain rfl : '$' = c := by simpa using hc
    rfl
  · rcases htail with rfl | ⟨a, b, ha, hb, rfl⟩
    · have heq : ('$' :: ds ++ ([] : List Char)).getLast? = ds.getLast? := by
        simpa using List.getLast?_append_of_ne_nil ['$'] hne
      rw [heq] at hc
      exact isSpaceC_of_digit (hds c (List.mem_of_mem_getLast? hc))
    · have heq : ('$' :: ds ++ ['.', a, b]).getLast? = ['.', a, b].getLast? :=
        List.getLast?_append_of_ne_nil ('$' :: ds) (by simp)
      rw [heq] at hc
      obtain rfl : b = c := by simpa using hc
      exact isSpaceC_of_digit hb

/-- `searchNumeric` on a dollar-amount string captures the digits and
decimals exactly. -/
theorem searchNumeric_dollar {ds tail : List Char} (hne : ds ≠ [])
    (hds : ∀ c ∈ ds, isDigitC c = true)
    (htail : tail = [] ∨ ∃ a b, isDigitC a = true ∧ isDigitC b = true ∧
      tail = ['.', a, b]) :
    searchNumeric ('$' :: ds ++ tail) = some (ds ++ tail) := by
  have hhead : ∀ c, tail.head? = some c → isDigitC c = false := by
    rcases htail with rfl | ⟨a, b, _, _, rfl⟩
    · intro c hc; cases hc
    · intro c hc
      obtain rfl := by simpa using hc
      rfl
  obtain ⟨htw, hdw⟩ := takeWhile_append_all tail hds hhead
  have step : searchNumeric ('$' :: ds ++ tail) =
      (if isDigitC '$' = true then some (numGroup ('$' :: ds ++ tail))
       else if '$' = '$' ∧ (ds ++ tail).takeWhile isDigitC ≠ [] then
         some (numGroup (ds ++ tail))
       else searchNumeric (ds ++ tail)) := rfl
  rw [step]
  rw [if_neg (fun hc => by cases hc)]
  rw [if_pos ⟨rfl, by rw [htw]; exact hne⟩]
  unfold numGroup
  rw [htw, hdw]
  rcases htail with rfl | ⟨a, b, ha, hb, rfl⟩
  · simp [decPart, matchDecimals]
  · simp [decPart, matchDecimals, ha, hb]

/-- Chaining lemma: both numeric normalizers map a dollar-amount string to
its numeric value. -/
theorem normalizers_on_dollar {m : List Char} (h : isDollarAmount m = true) :
    normalize_price m = some (dollarValue m) ∧
      standardize_price m = some (dollarValue m) := by
  obtain ⟨ds, tail, rfl, hne, hds, htail⟩ := isDollarAmount_eq_true h
  have hchars := dollar_chars hds htail
  have htrim := trimL_dollar hne hds htail
  have hlower := toLowerL_fixed hchars
  have hnum := searchNumeric_dollar hne hds htail
  have hval : dollarValue ('$' :: ds ++ tail) = ratOfGroup (ds ++ tail) := rfl
  have hcf : ∀ x : Char, isDigitC x = false → x ≠ '$' → x ≠ '.' →
      x ∉ '$' :: ds ++ tail := by
    intro x hx h1 h2 hmem
    rcases hchars x hmem with rfl | rfl | hd
    · exact h1 rfl
    · exact h2 rfl
    · rw [hx] at hd; cases hd
  have hkw : ∀ k ∈ priceKeywords ++ [freeLowerL],
      containsSub k ('$' :: ds ++ tail) = false := by
    intro k hk
    fin_cases hk
    · exact containsSub_eq_false (p := ("contact").toList) (by decide)
        (hcf 'c' (by decide) (by decide) (by decide))
    · exact containsSub_eq_false (p := ("custom").toList) (by decide)
        (hcf 'c' (by decide) (by decide) (by decide))
    · exact containsSub_eq_false (p := ("enterprise").toList) (by decide)
        (hcf 'e' (by decide) (by decide) (by decide))
    · exact containsSub_eq_false (p := freeLowerL) (by decide)
        (hcf 'f' (by decide) (by decide) (by decide))
  have hnotfree : toLowerL ('$' :: ds ++ tail) ≠ freeLowerL := by
    rw [hlower]
    intro heq
    have hh := congrArg List.head? heq
    rw [show (freeLowerL).head? = some 'f' from rfl] at hh
    simp at hh
  constructor
  · rw [normalize_price]
    simp only [htrim]
    rw [if_neg hnotfree]
    rw [if_neg (fun hc => by
      rw [hlower, hkw contactKw (by decide)] at hc
      cases hc)]
    rw [hnum, hval]
  · rw [standardize_price]
    simp only [htrim, hlower]
    rw [if_neg (by
      rintro ⟨k, hk, hc⟩
      rw [hkw k (List.mem_append_left _ hk)] at hc
      cases hc)]
    by_cases h0 : ('$' :: ds ++ tail : List Char) = ("$0").toList
    · rw [if_pos (Or.inr h0)]
      rw [hval]
      obtain ⟨rfl, rfl⟩ : ds = ['0'] ∧ tail = [] := by
        cases ds with
        | nil => exact absurd rfl hne
        | cons d ds' =>
          have h0' : d :: (ds' ++ tail) = ['0'] := by
            have := congrArg List.tail h0
            simpa using this
          obtain ⟨rfl, he⟩ := by
            rw [List.cons_eq_cons] at h0'
            exact h0'
          obtain ⟨rfl, rfl⟩ := List.append_eq_nil.mp he
          exact ⟨rfl, rfl⟩
      have : ratOfGroup ((['0'] : List Char) ++ []) = 0 := by
        with_unfolding_all decide
      rw [this]
    · rw [if_neg (by
        rintro (hfree | heq)
        · rw [hkw freeLowerL (by decide)] at hfree
          cases hfree
        · exact h0 heq)]
      rw [hnum, hval]

/-- `addFeature` grows the list by at most one element. -/
theorem addFeature_length (features : List (List Char)) (raw : List Char) :
    (addFeature features raw).length ≤ features.length + 1 := by
  simp only [addFeature]
  split
  · omega
  split
  · omega
  split
  · omega
  split
  · omega
  · simp

theorem foldl_addFeature_length (l : List (List Char)) :
    ∀ acc : List (List Char),
      (l.foldl addFeature acc).length ≤ acc.length + l.length := by
  induction l with
  | nil => intro acc; simp
  | cons a t ih =>
    intro acc
    calc ((a :: t).foldl addFeature acc).length
        = (t.foldl addFeature (addFeature acc a)).length := rfl
      _ ≤ (addFeature acc a).length + t.length := ih _
      _ ≤ (acc.length + 1) + t.length := by
          have := addFeature_length acc a; omega
      _ = acc.length + (a :: t).length := by simp; omega

/-- The first character of a trimmed string is not whitespace. -/
theorem trimL_head_not {l : List Char} {c : Char}
    (h : (trimL l).head? = some c) : isSpaceC c = false := by
  have hne : trimL l ≠ [] := by intro he; rw [he] at h; cases h
  obtain ⟨t, ht⟩ := List.rdropWhile_prefix isSpaceC (l.dropWhile isSpaceC)
  have hd1 : (l.dropWhile isSpaceC).head? = some c := by
    rw [← ht, List.head?_append_of_ne_nil _
      (show List.rdropWhile isSpaceC (l.dropWhile isSpaceC) ≠ [] from hne)]
    exact h
  have hne2 : l.dropWhile isSpaceC ≠ [] := by
    intro he; rw [he] at hd1; cases hd1
  have hh := List.head_dropWhile_not isSpaceC l hne2
  rw [List.head?_eq_head hne2] at hd1
  obtain rfl : (l.dropWhile isSpaceC).head hne2 = c := by simpa using hd1
  exact hh

/-- The last character of a trimmed string is not whitespace. -/
theorem trimL_last_not {l : List Char} {c : Char}
    (h : (trimL l).getLast? = some c) : isSpaceC c = false := by
  have hne : trimL l ≠ [] := by intro he; rw [he] at h; cases h
  have hh := List.rdropWhile_last_not isSpaceC (l.dropWhile isSpaceC) hne
  rw [List.getLast?_eq_getLast _ hne] at h
  obtain rfl : (trimL l).getLast hne = c := by simpa using h
  simpa using hh

/-- Texts accepted by `addFeature` keep their trimmed length: collapsing
newlines to spaces preserves length, and the result needs no re-trim. -/
theorem addFeature_elem_bounds (features : List (List Char)) (raw : List Char)
    (h : ∀ f ∈ features, 5 ≤ f.length ∧ f.length ≤ 250) :
    ∀ f ∈ addFeature features raw, 5 ≤ f.length ∧ f.length ≤ 250 := by
  simp only [addFeature]
  split
  · exact h
  split
  · exact h
  split
  · exact h
  split
  · exact h
  · rename_i hemp hshort hlong hdup
    intro f hf
    rcases List.mem_append.mp hf with hf | hf
    · exact h f hf
    obtain rfl : f = trimL ((trimL raw).map
        (fun c => if c = '\n' then ' ' else c)) := by simpa using hf
    have hnosp : ∀ c, isSpaceC c = false →
        isSpaceC (if c = '\n' then ' ' else c) = false := by
      intro c hc
      split
      · rename_i hcn; rw [hcn] at hc; cases hc
      · exact hc
    have hkept : trimL ((trimL raw).map (fun c => if c = '\n' then ' ' else c)) =
        (trimL raw).map (fun c => if c = '\n' then ' ' else c) := by
      refine trimL_eq_self (fun c hc => ?_) (fun c hc => ?_)
      · rw [List.head?_map] at hc
        rcases hh : (trimL raw).head? with _ | d
        · rw [hh] at hc; cases hc
        · rw [hh] at hc
          obtain rfl : (if d = '\n' then ' ' else d) = c := by simpa using hc
          exact hnosp d (trimL_head_not hh)
      · rw [List.getLast?_map] at hc
        rcases hh : (trimL raw).getLast? with _ | d
        · rw [hh] at hc; cases hc
        · rw [hh] at hc
          obtain rfl : (if d = '\n' then ' ' else d) = c := by simpa using hc
          exact hnosp d (trimL_last_not hh)
    rw [hkept, List.length_map]
    exact ⟨by omega, by omega⟩

theorem foldl_addFeature_bounds (l : List (List Char)) :
    ∀ acc : List (List Char),
      (∀ f ∈ acc, 5 ≤ f.length ∧ f.length ≤ 250) →
      ∀ f ∈ l.foldl addFeature acc, 5 ≤ f.length ∧ f.length ≤ 250 := by
  induction l with
  | nil => intro acc h; exact h
  | cons a t ih =>
    intro acc h
    exact ih (addFeature acc a) (addFeature_elem_bounds acc a h)

theorem notionAddFeature_length (features : List (List Char))
    (raw : List Char) :
    (notionAddFeature features raw).length ≤ features.length + 1 := by
  simp only [notionAddFeature]
  split
  · simp
  · omega

theorem foldl_notionAddFeature_length (l : List (List Char)) :
    ∀ acc : List (List Char),
      (l.foldl notionAddFeature acc).length ≤ acc.length + l.length := by
  induction l with
  | nil => intro acc; simp
  | cons a t ih =>
    intro acc
    calc ((a :: t).foldl notionAddFeature acc).length
        = (t.foldl notionAddFeature (notionAddFeature acc a)).length := rfl
      _ ≤ (notionAddFeature acc a).length + t.length := ih _
      _ ≤ (acc.length + 1) + t.length := by
          have := notionAddFeature_length acc a; omega
      _ = acc.length + (a :: t).length := by simp; omega

theorem foldl_notionAddFeature_inv (l : List (List Char)) :
    ∀ acc : List (List Char),
      (acc.Nodup ∧ ∀ f ∈ acc, 6 ≤ f.length) →
      (l.foldl notionAddFeature acc).Nodup ∧
        ∀ f ∈ l.foldl notionAddFeature acc, 6 ≤ f.length := by
  induction l with
  | nil => intro acc h; exact h
  | cons a t ih =>
    intro acc h
    refine ih (notionAddFeature acc a) ?_
    simp only [notionAddFeature]
    split
    · rename_i hcond
      constructor
      · refine h.1.append (by simp) ?_
        intro x hx hx'
        obtain rfl : x = trimL a := by simpa using hx'
        exact hcond.2.2 hx
      · intro f hf
        rcases List.mem_append.mp hf with hf | hf
        · exact h.2 f hf
        · obtain rfl : f = trimL a := by simpa using hf
          omega
    · exact h

/-- `firstSuchThat` finds exactly the first qualifying element. -/
theorem firstSuchThat_eq_some (p : Elem → Bool) (l : List Elem) (e : Elem) :
    firstSuchThat p l = some e ↔
      ∃ l₁ l₂, l = l₁ ++ e :: l₂ ∧ p e = true ∧ ∀ x ∈ l₁, p x = false := by
  induction l with
  | nil =>
    simp only [firstSuchThat]
    constructor
    · intro h; cases h
    · rintro ⟨l₁, l₂, h, -, -⟩
      exact absurd h (by simp)
  | cons a t ih =>
    rw [firstSuchThat]
    split
    · rename_i hp
      constructor
      · intro h
        obtain rfl : a = e := by simpa using h
        exact ⟨[], t, rfl, hp, by simp⟩
      · rintro ⟨l₁, l₂, h, hpe, hfirst⟩
        cases l₁ with
        | nil =>
          obtain ⟨rfl, -⟩ := by
            rw [List.nil_append, List.cons_eq_cons] at h
            exact h
          rfl
        | cons b l₁ =>
          obtain ⟨rfl, -⟩ := by
            rw [List.cons_append, List.cons_eq_cons] at h
            exact h
          have hfa := hfirst a (List.mem_cons_self _ _)
          rw [hfa] at hp
          cases hp
    · rename_i hp
      rw [ih]
      constructor
      · rintro ⟨l₁, l₂, rfl, hpe, hfirst⟩
        refine ⟨a :: l₁, l₂, rfl, hpe, ?_⟩
        intro x hx
        rcases List.mem_cons.mp hx with rfl | hx
        · exact Bool.of_not_eq_true hp
        · exact hfirst x hx
      · rintro ⟨l₁, l₂, h, hpe, hfirst⟩
        cases l₁ with
        | nil =>
          obtain ⟨rfl, -⟩ := by
            rw [List.nil_append, List.cons_eq_cons] at h
            exact h
          exact absurd hpe hp
        | cons b l₁ =>
          obtain ⟨rfl, ht⟩ := by
            rw [List.cons_append, List.cons_eq_cons] at h
            exact h
          exact ⟨l₁, l₂, ht, hpe, fun x hx =>
            hfirst x (List.mem_cons_of_mem _ hx)⟩

theorem firstSuchThat_eq_none (p : Elem → Bool) (l : List Elem) :
    firstSuchThat p l = none ↔ ∀ x ∈ l, p x = false := by
  induction l with
  | nil => simp [firstSuchThat]
  | cons a t ih =>
    rw [firstSuchThat]
    split
    · rename_i hp
      constructor
      · intro h; cases h
      · intro h
        rw [h a (List.mem_cons_self _ _)] at hp
        cases hp
    · rename_i hp
      rw [ih]
      constructor
      · intro h x hx
        rcases List.mem_cons.mp hx with rfl | hx
        · exact Bool.of_not_eq_true hp
        · exact h x hx
      · intro h x hx
        exact h x (List.mem_cons_of_mem _ hx)

/-- The per-tier loop is exactly `filterMap` of the per-tier processor over
the requested tier list. -/
theorem extractCompanyGo_eq_filterMap (tier_names : List (List Char))
    (page : List Char → Option TierInput) (tiers : List (List Char)) :
    extractCompanyGo tier_names page tiers =
      tiers.filterMap (fun t => processTier tier_names t (page t)) := by
  induction tiers with
  | nil => rfl
  | cons t ts ih =>
    rw [extractCompanyGo, List.filterMap_cons]
    cases processTier tier_names t (page t) with
    | none => exact ih
    | some r => rw [ih]

/-- Skipping a raising level leaves the best-container fold unchanged. -/
theorem chooseBestContainer_skip_none (tier : List Char)
    (tier_names : List (List Char)) (l₁ l₂ : List (Option AncestorInfo)) :
    chooseBestContainer tier tier_names (l₁ ++ none :: l₂) =
      chooseBestContainer tier tier_names (l₁ ++ l₂) := by
  unfold chooseBestContainer
  rw [List.foldl_append, List.foldl_append, List.foldl_cons]
  rfl

/-- If every level of the chain raises or is out of the length band, the
best-container fold returns nothing. -/
theorem chooseBestContainer_eq_none (tier : List Char)
    (tier_names : List (List Char)) (chain : List (Option AncestorInfo))
    (h : ∀ a : AncestorInfo, some a ∈ chain →
      a.text.length < 50 ∨ 5000 < a.text.length) :
    chooseBestContainer tier tier_names chain = none := by
  unfold chooseBestContainer
  have : ∀ acc : ℚ × Option AncestorInfo,
      chain.foldl (bestStep tier tier_names) acc = acc := by
    induction chain with
    | nil => intro acc; rfl
    | cons lvl rest ih =>
      intro acc
      rw [List.foldl_cons]
      have hstep : bestStep tier tier_names acc lvl = acc := by
        cases lvl with
        | none => rfl
        | some a =>
          have hs : scoreLevel tier tier_names a = none := by
            unfold scoreLevel
            rw [if_pos (h a (List.mem_cons_self _ _))]
          simp only [bestStep, hs]
      rw [hstep]
      exact ih (fun a ha => h a (List.mem_cons_of_mem _ ha)) acc
  rw [this]

/-- One step of the best-container loop either keeps the state or installs a
level as the running best. -/
theorem bestStep_cases (tier : List Char) (tier_names : List (List Char))
    (acc : ℚ × Option AncestorInfo) (lvl : Option AncestorInfo) :
    bestStep tier tier_names acc lvl = acc ∨
      ∃ (s : ℚ) (b : AncestorInfo),
        bestStep tier tier_names acc lvl = (s, some b) := by
  unfold bestStep
  cases lvl with
  | none => exact Or.inl rfl
  | some b =>
    dsimp only
    rcases hsl : scoreLevel tier tier_names b with _ | s <;> dsimp only
    · exact Or.inl rfl
    · split
      · exact Or.inr ⟨s, b, rfl⟩
      · exact Or.inl rfl

/-- Once some level has been installed as the running best, the loop never
returns to "no container". -/
theorem bestFold_some_ne_none (tier : List Char)
    (tier_names : List (List Char)) (chain : List (Option AncestorInfo)) :
    ∀ (q : ℚ) (a : AncestorInfo),
      (chain.foldl (bestStep tier tier_names) (q, some a)).2 ≠ none := by
  induction chain with
  | nil => intro q a h; cases h
  | cons lvl rest ih =>
    intro q a
    rw [List.foldl_cons]
    rcases bestStep_cases tier tier_names (q, some a) lvl with h | ⟨s, b, h⟩ <;>
      rw [h]
    · exact ih q a
    · exact ih s b

/-- If every scored level stays at or below the running best score, the loop
state never changes. -/
theorem bestFold_le_acc (tier : List Char) (tier_names : List (List Char))
    (chain : List (Option AncestorInfo)) :
    ∀ acc : ℚ × Option AncestorInfo,
      (∀ a : AncestorInfo, some a ∈ chain → ∀ s : ℚ,
        scoreLevel tier tier_names a = some s → s ≤ acc.1) →
      chain.foldl (bestStep tier tier_names) acc = acc := by
  induction chain with
  | nil => intro acc _; rfl
  | cons lvl rest ih =>
    intro acc h
    rw [List.foldl_cons]
    have hstep : bestStep tier tier_names acc lvl = acc := by
      cases lvl with
      | none => rfl
      | some a =>
        rcases hsl : scoreLevel tier tier_names a with _ | s
        · simp only [bestStep, hsl]
        · simp only [bestStep, hsl]
          rw [if_neg (not_lt.mpr (h a (List.mem_cons_self _ _) s hsl))]
    rw [hstep]
    exact ih acc (fun a ha s hs => h a (List.mem_cons_of_mem _ ha) s hs)

/-- Starting with no best container, ending with no best container bounds
every scored level by the starting score. -/
theorem bestFold_none_bound (tier : List Char)
    (tier_names : List (List Char)) (chain : List (Option AncestorInfo)) :
    ∀ q : ℚ, (chain.foldl (bestStep tier tier_names) (q, none)).2 = none →
      ∀ a : AncestorInfo, some a ∈ chain →
        ∀ s : ℚ, scoreLevel tier tier_names a = some s → s ≤ q := by
  induction chain with
  | nil => intro q _ a ha; cases ha
  | cons lvl rest ih =>
    intro q hfold a ha s hs
    rw [List.foldl_cons] at hfold
    rcases List.mem_cons.mp ha with heq | ha
    · rw [← heq] at hfold
      by_cases hlt : q < s
      · exfalso
        have hstep : bestStep tier tier_names (q, none) (some a) =
            (s, some a) := by
          simp only [bestStep, hs]
          rw [if_pos hlt]
        rw [hstep] at hfold
        exact bestFold_some_ne_none tier tier_names rest s a hfold
      · exact not_lt.mp hlt
    · rcases bestStep_cases tier tier_names (q, none) lvl
        with hstep | ⟨s', b, hstep⟩
      · rw [hstep] at hfold
        exact ih q hfold a ha s hs
      · rw [hstep] at hfold
        exact absurd hfold (bestFold_some_ne_none tier tier_names rest s' b)

/-- The exact condition for the scorer to return no container: every level
either raises, is skipped by the length band (`scoreLevel` is `none`), or
scores at most the starting sentinel `-999`. -/
theorem chooseBestContainer_none_iff (tier : List Char)
    (tier_names : List (List Char)) (chain : List (Option AncestorInfo)) :
    chooseBestContainer tier tier_names chain = none ↔
      ∀ a : AncestorInfo, some a ∈ chain →
        ∀ s : ℚ, scoreLevel tier tier_names a = some s → s ≤ -999 := by
  constructor
  · intro h
    exact bestFold_none_bound tier tier_names chain (-999) h
  · intro h
    unfold chooseBestContainer
    rw [bestFold_le_acc tier tier_names chain (-999, none) h]

/-! Claim theorems. -/

/-- Claim C1: for every input text containing one of the contact-sales
phrases case-insensitively and for every tier label, `extract_price` returns
exactly `"Contact sales"`, even when the text also contains a dollar
amount (the phrase check is priority 1). -/
theorem claim_c1_contact_priority (text tier_name : List Char)
    (h : ∃ p ∈ contact_patterns, containsSub p (toLowerL text) = true) :
    extract_price text tier_name = contactSalesOut := by
  simp only [extract_price]
  rw [if_pos h]

/-- Witness for C1 at a text holding both a contact phrase (in mixed case)
and a dollar amount. -/
theorem claim_c1_contact_priority_witness :
    (∃ p ∈ contact_patterns, containsSub p
      (toLowerL (("Please Contact Sales today for a $99 deal").toList)) = true) ∧
    extract_price (("Please Contact Sales today for a $99 deal").toList)
      (("Pro").toList) = contactSalesOut :=
  ⟨by decide, claim_c1_contact_priority _ _ (by decide)⟩

/-- Claim C2: with the price indicator, list-item count and text length held
fixed, each additional other-tier mention lowers the container score by
exactly 40; in particular one mention scores strictly below zero mentions. -/
theorem claim_c2_other_tier_penalty (hp : Bool) (li len m : ℕ) :
    containerScore hp (m + 1) li len = containerScore hp m li len - 40 ∧
      containerScore hp 1 li len < containerScore hp 0 li len := by
  constructor
  · unfold containerScore
    push_cast
    ring
  · unfold containerScore
    push_cast
    linarith

/-- Claim C9 (and claim C3's skip behaviour at company level): the company
result is exactly the per-tier processor filter-mapped over the requested
tier list, in the requested order — each tier whose processing fails is
skipped and no failure propagates (the embedding is a total function) — and
an ancestor level at which the tree raises is simply left unscored. -/
theorem claim_c9_skip_and_order (tier_names : List (List Char))
    (page : List Char → Option TierInput) :
    extract_company tier_names page =
        tier_names.filterMap (fun t => processTier tier_names t (page t)) ∧
      (∀ tiers : List (List Char),
        extractCompanyGo tier_names page tiers =
          tiers.filterMap (fun t => processTier tier_names t (page t))) ∧
      ∀ (tier : List Char) (l₁ l₂ : List (Option AncestorInfo)),
        chooseBestContainer tier tier_names (l₁ ++ none :: l₂) =
          chooseBestContainer tier tier_names (l₁ ++ l₂) :=
  ⟨extractCompanyGo_eq_filterMap tier_names page tier_names,
    fun tiers => extractCompanyGo_eq_filterMap tier_names page tiers,
    fun tier l₁ l₂ => chooseBestContainer_skip_none tier tier_names l₁ l₂⟩

/-- Claim C10: when no contact phrase, no free signal and no `\$\d+` match
fires, a priority-4 match returns `$` followed by exactly the digits of
capture group 1 — the integer part — so any `.dd` fractional part is
silently discarded. -/
theorem claim_c10_priority4_integer (text tier_name ds : List Char)
    (h1 : ∀ p ∈ contact_patterns, containsSub p (toLowerL text) = false)
    (h2 : ¬(toLowerL tier_name = freeLowerL ∨
        containsSub freeForeverL (toLowerL text) = true ∨
        trimL (toLowerL text) = freeLowerL))
    (h3 : searchDollar text = none)
    (h4 : searchNumber (toLowerL text) = some ds) :
    extract_price text tier_name = '$' :: ds ∧ ds ≠ [] ∧
      ∀ c ∈ ds, isDigitC c = true := by
  obtain ⟨hne, hds⟩ := searchNumber_eq_some h4
  refine ⟨?_, hne, hds⟩
  simp only [extract_price]
  rw [if_neg (by
    rintro ⟨p, hp, hc⟩
    rw [h1 p hp] at hc
    cases hc)]
  rw [if_neg h2, h3, h4]

/-- Witness for C10: `"17.50 per month"` yields `"$17"`, dropping `.50`. -/
theorem claim_c10_witness :
    extract_price (("Starts at 17.50 per month for unlimited members").toList)
      (("Pro").toList) = '$' :: (("17").toList) :=
  (claim_c10_priority4_integer _ _ _ (by decide) (by decide) (by decide)
    (by decide)).1

/-- Counterexample to C3: on the adversarial page whose single wrapping
container is inside the length band and mentions the other tier, the scorer
still selects that container for both tier labels (its score beats the
initial `-999`), and the assembler emits a (merged) record for each tier —
it does not return "no container". -/
theorem claim_c3_counterexample :
    (50 ≤ wrapText.length ∧ wrapText.length ≤ 5000) ∧
    containsSub proTier wrapText = true ∧
    containsSub freeTier wrapText = true ∧
    chooseBestContainer freeTier twoTiers [some wrapInfo] = some wrapInfo ∧
    chooseBestContainer proTier twoTiers [some wrapInfo] = some wrapInfo ∧
    (extract_company twoTiers advPage).length = 2 := by
  with_unfolding_all decide

/-- Claim C3 as amended: the scorer returns no container exactly when every
ancestor level of the located heading raises, is skipped by the `[50, 5000]`
text-length band, or scores at most the `-999` starting sentinel; in
particular, when every level raises or is out of band, the assembler emits no
record for the tier.  Other-tier mentions by themselves do not produce a
no-container result: in the adversarial single-wrapper scenario the in-band
container scores above `-999` and is selected (see the counterexample). -/
theorem claim_c3_no_container_characterization :
    (∀ (tier_names : List (List Char)) (tier : List Char)
        (chain : List (Option AncestorInfo)),
      chooseBestContainer tier tier_names chain = none ↔
        ∀ a : AncestorInfo, some a ∈ chain →
          ∀ s : ℚ, scoreLevel tier tier_names a = some s → s ≤ -999) ∧
    (∀ (tier_names : List (List Char)) (tier : List Char) (ti : TierInput)
        (h : Elem), findHeading tier ti.elems = some h →
      (∀ a : AncestorInfo, some a ∈ ti.ancestors h →
        a.text.length < 50 ∨ 5000 < a.text.length) →
      processTier tier_names tier (some ti) = none) := by
  constructor
  · exact fun tier_names tier chain =>
      chooseBestContainer_none_iff tier tier_names chain
  · intro tier_names tier ti h hh hband
    simp only [processTier]
    rw [hh]
    dsimp only
    rw [chooseBestContainer_eq_none tier tier_names _ hband]

set_option maxRecDepth 2000 in
/-- Witness for the amended C3: no record at a chain holding one out-of-band
level and one raising level, and no container at an in-band level whose 25
other-tier mentions push its score to `-4001/4 < -999`. -/
theorem claim_c3_witness :
    processTier oneTier proTier (some c3SmallInput) = none ∧
    chooseBestContainer proTier sentinelNames [some sentinelInfo] = none := by
  constructor
  · refine claim_c3_no_container_characterization.2 oneTier proTier
      c3SmallInput (headingFor proTier) (by decide) ?_
    intro a ha
    simp only [c3SmallInput, List.mem_cons] at ha
    rcases ha with ha | ha | ha
    · obtain rfl : a = tinyInfo := by simpa using ha
      exact Or.inl (by decide)
    · cases ha
    · simp at ha
  · refine (claim_c3_no_container_characterization.1 sentinelNames proTier
      [some sentinelInfo]).mpr ?_
    intro a ha s hs
    obtain rfl : a = sentinelInfo := by simpa using ha
    have hlen : sentinelText.length = 50 := by decide
    have hmen : ((sentinelNames.filter
        (fun t => !(toLowerL t == toLowerL proTier))).filter
        (fun t => containsSub t sentinelText)).length = 25 := by
      with_unfolding_all decide
    have hpi : hasPriceIndicator sentinelText = false := by
      with_unfolding_all decide
    have htext : sentinelInfo.text = sentinelText := rfl
    have hli : sentinelInfo.liTexts = ([] : List (List Char)) := rfl
    have hval : scoreLevel proTier sentinelNames sentinelInfo =
        some (-4001 / 4 : ℚ) := by
      simp only [scoreLevel, htext, hli]
      rw [hlen, hmen, hpi]
      rw [if_neg (by omega)]
      rw [show (containerScore false 25
          (List.length ([] : List (List Char))) 50 : ℚ) = -4001 / 4 from by
        norm_num [containerScore]]
    rw [hval] at hs
    obtain rfl : (-4001 / 4 : ℚ) = s := by simpa using hs
    norm_num

/-- Claim C4: every record the assembler emits has a `price` field that is
one of the four classes — the literal `"Contact sales"`, the literal
`"Free"`, the literal `"N/A"`, or a dollar-amount string — never absent. -/
theorem claim_c4_price_classes (tier_names : List (List Char))
    (page : List Char → Option TierInput) (r : PricingCardRecord)
    (hr : r ∈ extract_company tier_names page) :
    r.price = contactSalesOut ∨ r.price = freeOut ∨ r.price = naOut ∨
      isDollarAmount r.price = true := by
  rw [extract_company, extractCompanyGo_eq_filterMap] at hr
  obtain ⟨t, -, hp⟩ := List.mem_filterMap.mp hr
  rcases hpage : page t with _ | ti
  · rw [hpage] at hp; cases hp
  · rw [hpage] at hp
    simp only [processTier] at hp
    rcases hh : findHeading t ti.elems with _ | h
    · rw [hh] at hp; cases hp
    · rw [hh] at hp
      dsimp only at hp
      rcases hc : chooseBestContainer t tier_names (ti.ancestors h)
        with _ | c
      · rw [hc] at hp; cases hp
      · rw [hc] at hp
        obtain rfl : buildRecord t c = r := by simpa using hp
        exact extract_price_classes c.text t

/-- Witness for C4 at a concrete page emitting one record. -/
theorem claim_c4_witness :
    (buildRecord proTier c5Info).price = contactSalesOut ∨
      (buildRecord proTier c5Info).price = freeOut ∨
      (buildRecord proTier c5Info).price = naOut ∨
      isDollarAmount (buildRecord proTier c5Info).price = true :=
  claim_c4_price_classes oneTier c5Page (buildRecord proTier c5Info)
    (by with_unfolding_all decide)

/-- Counterexample to C5: the universal scraper's filter rejects features of
length below 5, not of length up to 5, so an emitted record can contain a
five-character feature. -/
theorem claim_c5_counterexample :
    (extract_company oneTier c5Page).map (fun r => r.features) =
      [[("abcde").toList, ("Unlimited projects forever").toList]] ∧
    (("abcde").toList).length ≤ 5 := by
  with_unfolding_all decide

set_option maxRecDepth 8000 in
/-- Claim C5 as amended: in the universal scraper a features list has at most
30 entries, each of length between 5 and 250 inclusive (deduplication
compares the pre-normalization text); in the notion variant it has at most 20
pairwise-distinct entries, each of length at least 6 with no upper bound; and
the spec's candidate list filters to exactly `["Unlimited projects"]`. -/
theorem claim_c5_feature_filter :
    (∀ lis : List (List Char), (extractFeatures lis).length ≤ 30 ∧
      ∀ f ∈ extractFeatures lis, 5 ≤ f.length ∧ f.length ≤ 250) ∧
    (∀ lis : List (List Char), (notionExtractFeatures lis).length ≤ 20 ∧
      (notionExtractFeatures lis).Nodup ∧
      ∀ f ∈ notionExtractFeatures lis, 6 ≤ f.length) ∧
    extractFeatures c5Candidates = [("Unlimited projects").toList] := by
  refine ⟨fun lis => ⟨?_, ?_⟩, fun lis => ⟨?_, ?_, ?_⟩, ?_⟩
  · have h1 := foldl_addFeature_length (lis.take 30) []
    simp only [List.length_nil] at h1
    have h2 : (lis.take 30).length ≤ 30 := by simp
    unfold extractFeatures
    omega
  · exact fun f hf => foldl_addFeature_bounds _ [] (by simp) f hf
  · have h1 := foldl_notionAddFeature_length (lis.take 20) []
    simp only [List.length_nil] at h1
    have h2 : (lis.take 20).length ≤ 20 := by simp
    unfold notionExtractFeatures
    omega
  · exact (foldl_notionAddFeature_inv _ [] (by simp)).1
  · exact fun f hf => (foldl_notionAddFeature_inv _ [] (by simp)).2 f hf
  · decide

/-- Witness for the amended C5: the length bounds instantiated at a
concrete surviving feature. -/
theorem claim_c5_witness :
    5 ≤ (("abcde").toList).length ∧ (("abcde").toList).length ≤ 250 :=
  (claim_c5_feature_filter.1 [("abcde").toList]).2 (("abcde").toList)
    (by decide)

/-- Counterexample to C6: the etl-variant normalizer checks only the keyword
`"contact"`, so a price string containing `"custom"` together with digits is
mapped to a numeric value, not to no value as the claim requires. -/
theorem claim_c6_counterexample :
    containsSub (("custom").toList)
      (toLowerL (trimL (("custom $10").toList))) = true ∧
    normalize_price (("custom $10").toList) = some 10 := by
  with_unfolding_all decide

/-- Claim C6 as amended: the transform-variant normalizer maps any string
containing `"contact"`, `"custom"` or `"enterprise"` to no value (the
etl-variant checks only `"contact"`); the recognizer's output is always one
of its four classes, and chaining either normalizer after the recognizer
agrees exactly with the claimed mapping: `"Contact sales"` ↦ absent,
`"Free"` ↦ `0.0`, a dollar amount ↦ its numeric value, `"N/A"` ↦ absent. -/
theorem claim_c6_normalizer_chain :
    (∀ p : List Char, (∃ k ∈ priceKeywords,
        containsSub k (toLowerL (trimL p)) = true) →
      standardize_price p = none) ∧
    ∀ text tier_name : List Char,
      (extract_price text tier_name = contactSalesOut ∨
        extract_price text tier_name = freeOut ∨
        extract_price text tier_name = naOut ∨
        isDollarAmount (extract_price text tier_name) = true) ∧
      (extract_price text tier_name = contactSalesOut →
        normalize_price (extract_price text tier_name) = none ∧
        standardize_price (extract_price text tier_name) = none) ∧
      (extract_price text tier_name = freeOut →
        normalize_price (extract_price text tier_name) = some 0 ∧
        standardize_price (extract_price text tier_name) = some 0) ∧
      (extract_price text tier_name = naOut →
        normalize_price (extract_price text tier_name) = none ∧
        standardize_price (extract_price text tier_name) = none) ∧
      (isDollarAmount (extract_price text tier_name) = true →
        normalize_price (extract_price text tier_name) =
          some (dollarValue (extract_price text tier_name)) ∧
        standardize_price (extract_price text tier_name) =
          some (dollarValue (extract_price text tier_name))) := by
  constructor
  · intro p hk
    simp only [standardize_price]
    rw [if_pos hk]
  intro text tier_name
  refine ⟨extract_price_classes text tier_name, ?_, ?_, ?_, ?_⟩
  · intro h; rw [h]
    exact ⟨by with_unfolding_all decide, by with_unfolding_all decide⟩
  · intro h; rw [h]
    exact ⟨by with_unfolding_all decide, by with_unfolding_all decide⟩
  · intro h; rw [h]
    exact ⟨by with_unfolding_all decide, by with_unfolding_all decide⟩
  · intro h
    exact normalizers_on_dollar h

/-- Witness for the amended C6 at a keyword string and at a chained
dollar-amount extraction. -/
theorem claim_c6_witness :
    standardize_price (("custom plan").toList) = none ∧
    normalize_price (extract_price (("only $12.34 a seat").toList) proTier) =
      some (dollarValue
        (extract_price (("only $12.34 a seat").toList) proTier)) := by
  constructor
  · exact claim_c6_normalizer_chain.1 _ (by decide)
  · exact ((claim_c6_normalizer_chain.2 _ _).2.2.2.2 (by decide)).1

/-- Counterexample to C7: with the tier label `"Free"` (which matches
"free" case-insensitively) but a text containing a contact-sales phrase, the
recognizer returns `"Contact sales"`, not `"Free"` as the claim requires for
any container text. -/
theorem claim_c7_counterexample :
    toLowerL (("Free").toList) = freeLowerL ∧
    extract_price (("contact us for details").toList) (("Free").toList) =
      contactSalesOut ∧
    contactSalesOut ≠ freeOut := by
  decide

/-- Claim C7 as amended: a text whose trimmed lower-case content is exactly
`"free"` always yields `"Free"` (such a text can hold no contact phrase);
a tier label equal to "free" case-insensitively yields `"Free"` provided the
text contains no contact-sales phrase (priority 1 fires first otherwise). -/
theorem claim_c7_free_rules (text tier_name : List Char) :
    (trimL (toLowerL text) = freeLowerL →
      extract_price text tier_name = freeOut) ∧
    (toLowerL tier_name = freeLowerL →
      (∀ p ∈ contact_patterns, containsSub p (toLowerL text) = false) →
      extract_price text tier_name = freeOut) := by
  constructor
  · intro htrim
    have hnoc : ∀ p ∈ contact_patterns,
        containsSub p (toLowerL text) = false := by
      intro p hp
      have hmem : ∀ c ∈ toLowerL text, c ∈ freeLowerL ∨ isSpaceC c = true := by
        intro c hc
        rcases mem_trimL_or_space hc with hc | hc
        · exact Or.inl (htrim ▸ hc)
        · exact Or.inr hc
      have hnot : ∀ x : Char, x ∉ freeLowerL → isSpaceC x = false →
          x ∉ toLowerL text := by
        intro x hx1 hx2 hmem'
        rcases hmem x hmem' with h | h
        · exact hx1 h
        · rw [hx2] at h; cases h
      fin_cases hp
      · exact containsSub_eq_false (by decide)
          (hnot 'c' (by decide) (by decide))
      · exact containsSub_eq_false (by decide)
          (hnot 'c' (by decide) (by decide))
      · exact containsSub_eq_false (by decide)
          (hnot 'g' (by decide) (by decide))
      · exact containsSub_eq_false (by decide)
          (hnot 'k' (by decide) (by decide))
      · exact containsSub_eq_false (by decide)
          (hnot 'c' (by decide) (by decide))
    simp only [extract_price]
    rw [if_neg (by
      rintro ⟨p, hp, hc⟩
      rw [hnoc p hp] at hc
      cases hc)]
    rw [if_pos (Or.inr (Or.inr htrim))]
  · intro hfree hnoc
    simp only [extract_price]
    rw [if_neg (by
      rintro ⟨p, hp, hc⟩
      rw [hnoc p hp] at hc
      cases hc)]
    rw [if_pos (Or.inl hfree)]

/-- Witness for the amended C7: an all-whitespace-padded upper-case "FREE"
text, and a "FREE" tier label over a contact-free text with a dollar
figure. -/
theorem claim_c7_witness :
    extract_price (("  FREE  ").toList) (("Business").toList) = freeOut ∧
    extract_price (("$10 per seat").toList) (("FREE").toList) = freeOut :=
  ⟨(claim_c7_free_rules _ _).1 (by decide),
   (claim_c7_free_rules _ _).2 (by decide) (by decide)⟩

/-- Counterexample to C8: a `p` node whose whole text equals the label
matches case-insensitively and is far below the length threshold, so the
claim requires it to be returned; the universal scraper's locator rejects it
because its tag is not among `h1..h6`, `span`, `div` (a restriction the claim
omits), while the spec-worded locator returns it. -/
theorem claim_c8_counterexample :
    findHeading freeTier [pElem] = none ∧
    claimHeadingLocator freeTier [pElem] = some pElem := by
  decide

/-- Claim C8 as amended: the universal locator scans the elements whose
direct text equals or contains the label case-sensitively (the XPath step),
and returns the first, in document order, whose trimmed full text is shorter
than 50 characters, contains the label case-insensitively and whose tag is
heading-like; the notion variant scans exact direct-text matches and returns
the first with trimmed text shorter than 30; both return no match when no
element qualifies. -/
theorem claim_c8_heading_first_match (tier : List Char) (elems : List Elem) :
    (∀ e : Elem, findHeading tier elems = some e ↔
      ∃ l₁ l₂, elems.filter (xpathTierMatch tier) = l₁ ++ e :: l₂ ∧
        headingOk tier e = true ∧ ∀ x ∈ l₁, headingOk tier x = false) ∧
    (findHeading tier elems = none ↔
      ∀ e ∈ elems.filter (xpathTierMatch tier), headingOk tier e = false) ∧
    (∀ e : Elem, notionFindHeading tier elems = some e ↔
      ∃ l₁ l₂, elems.filter (fun x => x.ownText == tier) = l₁ ++ e :: l₂ ∧
        notionHeadingOk e = true ∧ ∀ x ∈ l₁, notionHeadingOk x = false) ∧
    (notionFindHeading tier elems = none ↔
      ∀ e ∈ elems.filter (fun x => x.ownText == tier),
        notionHeadingOk e = false) :=
  ⟨fun e => firstSuchThat_eq_some _ _ e, firstSuchThat_eq_none _ _,
   fun e => firstSuchThat_eq_some _ _ e, firstSuchThat_eq_none _ _⟩

/-- Witness for the amended C8: the two variants on the one-element page —
the universal locator rejects the `p` node, the notion locator takes it. -/
theorem claim_c8_witness :
    findHeading freeTier [pElem] = none ∧
    notionFindHeading freeTier [pElem] = some pElem :=
  ⟨((claim_c8_heading_first_match freeTier [pElem]).2.1).mpr (by decide),
   ((claim_c8_heading_first_match freeTier [pElem]).2.2.1 pElem).mpr
     ⟨[], [], by decide, by decide, by simp⟩⟩

end SaaSPricing
